/-
Verification development for the JSON/JSONL field-path translation tool.

The definitions below are a shallow embedding of the repository's Python
source (src/main.py, src/translate/client.py, src/translate/judge.py,
src/config.py).  JSON values are modelled by the inductive `Json`; Python
dicts become association lists with unique insertion-ordered keys, Python
lists become Lean lists, and the external model services are abstracted by
oracle functions at the call boundary, exactly as the spec treats them
(batch of strings in, batch of strings / verdicts out).
-/
import Mathlib

set_option maxHeartbeats 1000000
set_option linter.unusedVariables false

namespace Translator

/-- A JSON value as produced by `json.loads`: objects keep key order
(Python dicts preserve insertion order), arrays are ordered, and leaves are
strings, numbers, booleans or null.  Numbers are modelled by `Int`; no
claim depends on numeric leaf contents. -/
inductive Json where
  | str (s : String)
  | num (n : Int)
  | bool (b : Bool)
  | null
  | arr (xs : List Json)
  | obj (fields : List (String × Json))

/-- One component of an address: a dict key or a list index, mirroring the
mixed `str | int` entries of the Python address lists built by `_extract`. -/
inductive Key where
  | k (s : String)
  | idx (n : Nat)
  deriving DecidableEq

/-- `enumerate(obj)` starting at `n`. -/
def enum2 : Nat → List Json → List (Nat × Json)
  | _, [] => []
  | n, x :: xs => (n, x) :: enum2 (n + 1) xs

/-- Python dict lookup `d[k]` / `k in d`, on an insertion-ordered
association list (keys are unique in a Python dict, so first match is the
match). -/
def lookupField : List (String × Json) → String → Option Json
  | [], _ => none
  | (k, w) :: rest, key => if k = key then some w else lookupField rest key

/-- A path token as produced by `_parse_path`: `none` is the `[*]`
wildcard, `some s` a literal key (the source uses `str | None`). -/
abbrev Token := Option String

/-- Is `c` one of the three characters the tokenizer regex excludes from a
literal run (`.`, `[`, `]`)? -/
def isSep (c : Char) : Bool :=
  c = '.' || c = '[' || c = ']'

theorem dropWhile_len_le {α : Type} (p : α → Bool) :
    ∀ l : List α, (l.dropWhile p).length ≤ l.length := by
  intro l
  induction l with
  | nil => simp [List.dropWhile]
  | cons a tl ih =>
      by_cases hp : p a = true
      · simp [List.dropWhile, hp]
        omega
      · simp [List.dropWhile, hp]

/-- The scan performed by `re.findall(r'\[\*\]|[^\.\[\]]+', path)`: at each
position the regex first tries to match the literal `[*]`, then a maximal
run of non-separator characters, and otherwise advances one character. -/
def goTokens : List Char → List Token
  | [] => []
  | '[' :: '*' :: ']' :: rest => none :: goTokens rest
  | c :: rest =>
      if isSep c then goTokens rest
      else some (String.mk (c :: rest.takeWhile (fun d => ¬ isSep d)))
             :: goTokens (rest.dropWhile (fun d => ¬ isSep d))
  termination_by l => l.length
  decreasing_by
  · simp; omega
  · simp
  · simp
    exact Nat.lt_succ_of_le (dropWhile_len_le _ _)

/-- `_parse_path` from src/main.py: "question[*][*].content" becomes
`[some "question", none, none, some "content"]`. -/
def parse_path (path : String) : List Token :=
  goTokens path.toList

/-- `_extract` from src/main.py, with the mutable accumulator turned into
the returned list.  At a wildcard token it iterates a list with
`enumerate`; at a literal token it enters a dict if the key exists; with
tokens exhausted it emits the node only when it is a non-empty string. -/
def extract : List Token → Json → List Key → List (List Key × String)
  | [], Json.str s, address => if s = "" then [] else [(address, s)]
  | [], _, _ => []
  | none :: rest, Json.arr xs, address =>
      (enum2 0 xs).flatMap (fun p => extract rest p.2 (address ++ [Key.idx p.1]))
  | none :: _, _, _ => []
  | some key :: rest, Json.obj fs, address =>
      match lookupField fs key with
      | some v => extract rest v (address ++ [Key.k key])
      | none => []
  | some _ :: _, _, _ => []

/-- Read the child of a node at one key, i.e. the Python subscript
`cur[key]` used by `_set_by_address` while descending: `none` models the
KeyError / IndexError / TypeError that Python would raise. -/
def getChild : Json → Key → Option Json
  | Json.obj fs, Key.k key => lookupField fs key
  | Json.arr xs, Key.idx i => xs.get? i
  | _, _ => none

/-- Pure address dereference: follow a whole address from the root. -/
def getAt : Json → List Key → Option Json
  | j, [] => some j
  | j, k :: rest => (getChild j k).bind (fun c => getAt c rest)

/-- Python dict assignment `d[key] = v`: replace the first (unique)
occurrence in place, else append at the end, preserving insertion order. -/
def setField : List (String × Json) → String → Json → List (String × Json)
  | [], key, v => [(key, v)]
  | (k, w) :: rest, key, v =>
      if k = key then (key, v) :: rest else (k, w) :: setField rest key v

/-- The final assignment `cur[address[-1]] = value` of `_set_by_address`:
dict assignment always succeeds (insert-or-replace), list assignment only
in range; assigning into a scalar is a TypeError, modelled as `none`.
(Assigning an integer key into a dict would insert a non-string key, which
cannot arise from addresses produced by `_extract`; it is also `none`.) -/
def setChild : Json → Key → Json → Option Json
  | Json.obj fs, Key.k key, v => some (Json.obj (setField fs key v))
  | Json.arr xs, Key.idx i, v =>
      if i < xs.length then some (Json.arr (xs.set i v)) else none
  | _, _, _ => none

/-- `_set_by_address` from src/main.py, state-passing style: descend by
subscripting through all but the last component, then assign at the last.
`none` models the exception Python raises on an invalid address (including
the IndexError of `address[-1]` on an empty address). -/
def set_by_address : Json → List Key → String → Option Json
  | _, [], _ => none
  | j, [k], v => setChild j k (Json.str v)
  | j, k :: rest, v => do
      let c ← getChild j k
      let c2 ← set_by_address c rest v
      setChild j k c2

/-- Field-list worker of `_collect_all_string_paths`: iterate the dict
items in order; a string value yields the dotted path, a nested dict
recurses with an extended prefix, anything else (lists included) is
skipped. -/
def collectFieldsAux : List (String × Json) → String → List String
  | [], _ => []
  | (k, v) :: rest, pre =>
      let full := if pre = "" then k else pre ++ "." ++ k
      (match v with
       | Json.str _ => [full]
       | Json.obj gs => collectFieldsAux gs full
       | _ => []) ++ collectFieldsAux rest pre
  termination_by l _ => sizeOf l
  decreasing_by
  all_goals simp
  all_goals omega

/-- `_collect_all_string_paths` from src/main.py (auto-detect mode).  The
source takes a dict; on a non-dict Python would fail, but the pipeline
only ever passes records, which are dicts. -/
def collect_all_string_paths : Json → String → List String
  | Json.obj fs, pre => collectFieldsAux fs pre
  | _, _ => []

/-- Step 1 of `translate_records`: the ordered task list, records outer
loop, paths (configured, or auto-discovered per record when `fields` is
empty) inner loop, matches in traversal order. -/
def collectTasks (records : List Json) (fields : List String) :
    List (Nat × List Key × String) :=
  (enum2 0 records).flatMap (fun p =>
    let paths := if fields.isEmpty then collect_all_string_paths p.2 "" else fields
    paths.flatMap (fun path =>
      (extract (parse_path path) p.2 []).map (fun hit => (p.1, hit.1, hit.2))))

/-- The batch slicing `[texts[s : s + batch_size] for s in range(0, len(texts), batch_size)]`.
(Python raises on a zero step; the pipeline is only run with a positive
batch size, and the theorems below assume one.) -/
def chunk : List String → Nat → List (List String)
  | l, n =>
    if l.isEmpty then [] else
    if n = 0 then [] else
    l.take n :: chunk (l.drop n) n
  termination_by l _ => l.length
  decreasing_by
    rename_i h1 h2
    simp [List.isEmpty_iff] at h1
    have : l.length ≠ 0 := fun hh => h1 (List.length_eq_zero.mp hh)
    simp
    omega

/-- Step 4 of `translate_records`: apply each translation at its recorded
address inside the (deep-copied) record list; `none` models the exception
Python would raise on an invalid address. -/
def applyWrites : List Json → List ((Nat × List Key) × String) → Option (List Json)
  | recs, [] => some recs
  | recs, ((i, addr), v) :: rest => do
      let r ← recs.get? i
      let r2 ← set_by_address r addr v
      applyWrites (recs.set i r2) rest

/-- One external service interaction of the pipeline.  `translate` is the
bulk call to `translate_batch`; `judge` and `repair` are the calls to
`judge_batch` and `translate_with_feedback` that src/translate implements
and config.py documents. -/
inductive SvcCall where
  | translate (texts : List String)
  | judge (originals translations : List String)
  | repair (original previousTranslation feedback : String)

/-- `translate_records` from src/main.py together with the trace of
external service calls it performs.  The translation service is abstracted
by the oracle `svc` (per-batch results); deep copy is the identity on pure
values, so write-back starts from the input list. -/
def translateRecordsT (records : List Json) (fields : List String)
    (svc : List String → List String) (batchSize : Nat) :
    Option (List Json) × List SvcCall :=
  let tasks := collectTasks records fields
  if tasks.isEmpty then (some records, [])
  else
    let textsOnly := tasks.map (fun t => t.2.2)
    let batches := chunk textsOnly batchSize
    let allTranslations := batches.flatMap svc
    (applyWrites records ((tasks.map (fun t => (t.1, t.2.1))).zip allTranslations),
     batches.map SvcCall.translate)

/-- The record-list result of `translate_records` (the trace dropped). -/
def translate_records (records : List Json) (fields : List String)
    (svc : List String → List String) (batchSize : Nat) : Option (List Json) :=
  (translateRecordsT records fields svc batchSize).1

/-- The single-quote character, built numerically. -/
def squote : String := (Char.ofNat 39).toString

mutual

/-- Python `repr` of a value parsed from JSON (as it appears inside
`str(list)` / `str(dict)` and in f-string interpolation of containers).
String escaping inside `repr` is not reproduced character-for-character;
no claim depends on it. -/
def pyRepr : Json → String
  | Json.str s => squote ++ s ++ squote
  | Json.num n => toString n
  | Json.bool true => "True"
  | Json.bool false => "False"
  | Json.null => "None"
  | Json.arr xs => "[" ++ pyReprList xs ++ "]"
  | Json.obj fs => "\x7b" ++ pyReprFields fs ++ "\x7d"

/-- Comma-joined `repr`s of list elements. -/
def pyReprList : List Json → String
  | [] => ""
  | [x] => pyRepr x
  | x :: rest => pyRepr x ++ ", " ++ pyReprList rest

/-- Comma-joined `repr`s of dict items. -/
def pyReprFields : List (String × Json) → String
  | [] => ""
  | [(k, v)] => squote ++ k ++ squote ++ ": " ++ pyRepr v
  | (k, v) :: rest => squote ++ k ++ squote ++ ": " ++ pyRepr v ++ ", " ++ pyReprFields rest

end

/-- Python `str` of a value parsed from JSON, as used by the
`[str(t) for t in translated]` coercion in `translate_batch` and the
f-string in `judge_batch`: a string is itself, everything else renders as
its `repr`. -/
def pyStr : Json → String
  | Json.str s => s
  | other => pyRepr other

/-- The response-validation tail of `translate_batch`
(src/translate/client.py).  The network transport, markdown-fence
stripping and `json.loads` are summarised by the `parsed` argument: the
parse result of the service's response body (`Except.error` when the body
is not JSON), exactly the external contract of §6 of the spec.  The body:
an empty input returns `[]` before any call; non-string inputs are coerced
to empty strings; a non-array parse and a length mismatch raise
`ValueError`; otherwise every element is coerced with `str`. -/
def translate_batch (texts : List Json) (parsed : Except String Json) :
    Except String (List String) :=
  if texts.isEmpty then Except.ok []
  else
    let safe_texts := texts.map (fun t => match t with | Json.str s => s | _ => "")
    match parsed with
    | Except.error raw => Except.error ("Model returned non-JSON output:\n" ++ raw)
    | Except.ok j =>
        match j with
        | Json.arr translated =>
            if translated.length ≠ safe_texts.length then
              Except.error ("Translation count mismatch: sent " ++
                toString safe_texts.length ++ ", received " ++ toString translated.length)
            else Except.ok (translated.map pyStr)
        | _ => Except.error "Expected a JSON array"

/-- Does the verdict pass `isinstance(v, dict) and "ok" in v`? -/
def hasOkKey : Json → Bool
  | Json.obj fs => (lookupField fs "ok").isSome
  | _ => false

/-- The per-verdict normalisation of `judge_batch`: a malformed entry
becomes a rejection with a diagnostic feedback string, a well-formed entry
passes through unchanged. -/
def normaliseVerdict (v : Json) : Json :=
  if hasOkKey v then v
  else Json.obj [("ok", Json.bool false),
                 ("feedback", Json.str ("Malformed verdict: " ++ pyStr v))]

/-- The response-validation tail of `judge_batch`
(src/translate/judge.py).  As with `translate_batch`, the Gemini
round-trip, fence stripping and `json.loads` are summarised by `parsed`.
The body: a non-array parse raises, a count mismatch against the number of
pairs raises, and otherwise every verdict is normalised so none is
dropped.  `translations` takes part only in the prompt, not in the
validation. -/
def judge_batch (originals translations : List String)
    (parsed : Except String Json) : Except String (List Json) :=
  match parsed with
  | Except.error raw => Except.error ("Gemini returned non-JSON output:\n" ++ raw)
  | Except.ok j =>
      match j with
      | Json.arr verdicts =>
          if verdicts.length ≠ originals.length then
            Except.error ("Verdict count mismatch: sent " ++ toString originals.length ++
              " pairs, received " ++ toString verdicts.length ++ " verdicts")
          else Except.ok (verdicts.map normaliseVerdict)
      | _ => Except.error "Expected a JSON array from Gemini"

/-- The process environment as far as `_get_client`
(src/translate/client.py) reads it: whether `OPENAI_API_KEY` is set. -/
structure Env where
  openaiKey : Option String

/-- Observable pipeline events of one file's processing, in order:
`read_records` in `main`, task collection at the top of
`translate_records`, and each attempt the tenacity wrapper makes at the
body of `translate_batch`. -/
inductive Ev where
  | readRecords
  | collectTasks
  | apiAttempt
  deriving DecidableEq

/-- `translate_batch` under its tenacity policy
(`stop_after_attempt(4)`, retry on any `Exception`, `reraise=True`) in a
deterministic environment: an empty batch returns before the client is
touched; with the key missing, `_get_client` raises `EnvironmentError` on
every one of the 4 attempts and the last error is reraised; with the key
present the service oracle answers.  Returns (number of attempts made,
outcome). -/
def translateBatchAttempts (env : Env) (svc : List String → List String)
    (texts : List String) : Nat × Except String (List String) :=
  if texts.isEmpty then (1, Except.ok [])
  else
    match env.openaiKey with
    | none => (4, Except.error "OPENAI_API_KEY is not set.")
    | some _ => (1, Except.ok (svc texts))

/-- The per-batch loop of `translate_records` step 3, with the event trace
of attempts; an exhausted-retry failure aborts the remaining batches. -/
def runBatches (env : Env) (svc : List String → List String) :
    List (List String) → List Ev × Except String (List String)
  | [] => ([], Except.ok [])
  | b :: rest =>
      let (n, r) := translateBatchAttempts env svc b
      match r with
      | Except.error e => (List.replicate n Ev.apiAttempt, Except.error e)
      | Except.ok ts =>
          let (evs2, r2) := runBatches env svc rest
          (List.replicate n Ev.apiAttempt ++ evs2,
           match r2 with
           | Except.error e => Except.error e
           | Except.ok more => Except.ok (ts ++ more))

/-- One file's processing as `main` performs it: read the records, then
run `translate_records` (collect tasks, batch the texts, call the service
per batch, write back).  The pair is (event trace, outcome).  There is no
credential check anywhere before the first service attempt — `load_dotenv`
only loads the file, and `_get_client` runs lazily inside
`translate_batch`. -/
def processFile (env : Env) (records : List Json) (fields : List String)
    (svc : List String → List String) (batchSize : Nat) :
    List Ev × Except String (List Json) :=
  let tasks := collectTasks records fields
  if tasks.isEmpty then ([Ev.readRecords, Ev.collectTasks], Except.ok records)
  else
    let textsOnly := tasks.map (fun t => t.2.2)
    let (evs, r) := runBatches env svc (chunk textsOnly batchSize)
    ([Ev.readRecords, Ev.collectTasks] ++ evs,
     match r with
     | Except.error e => Except.error e
     | Except.ok ts =>
         match applyWrites records ((tasks.map (fun t => (t.1, t.2.1))).zip ts) with
         | some out => Except.ok out
         | none => Except.error "invalid address")

/-- Is this a JSON object?  Records are dicts (`records: list[dict]` in the
source); theorems that range over arbitrary records assume this. -/
def isObjB : Json → Bool
  | Json.obj _ => true
  | _ => false

/-- Is this a scalar JSON leaf (string, number, boolean or null)? -/
def isScalarB : Json → Bool
  | Json.str _ => true
  | Json.num _ => true
  | Json.bool _ => true
  | Json.null => true
  | _ => false

/-- `under b c`: address `b` is a (not necessarily strict) prefix of `c`. -/
def under (b c : List Key) : Prop := ∃ t, c = b ++ t

/-- Does the write list contain a write for record `i` at address `b`? -/
def hasWrite (ws : List ((Nat × List Key) × String)) (i : Nat) (b : List Key) : Prop :=
  ∃ v, ((i, b), v) ∈ ws

/-- All values written to record `i` at address `b`, in order; with the
source's sequential write-back, the last one wins. -/
def writesAt (ws : List ((Nat × List Key) × String)) (i : Nat) (b : List Key) :
    List String :=
  ws.filterMap (fun w => if w.1 = (i, b) then some w.2 else none)

mutual

/-- The structural skeleton of a value: every leaf is collapsed to null,
keys, key order, array lengths and nesting are kept.  Two values with the
same shape agree on all structure except leaf contents. -/
def shape : Json → Json
  | Json.obj fs => Json.obj (shapeFields fs)
  | Json.arr xs => Json.arr (shapeList xs)
  | _ => Json.null

/-- Skeletons of array elements. -/
def shapeList : List Json → List Json
  | [] => []
  | x :: xs => shape x :: shapeList xs

/-- Skeletons of object fields. -/
def shapeFields : List (String × Json) → List (String × Json)
  | [] => []
  | (k, v) :: fs => (k, shape v) :: shapeFields fs

end

/-- The ordered write list of `translate_records` step 4: each task's
(record index, address) paired positionally with its translation. -/
def allWrites (records : List Json) (fields : List String)
    (svc : List String → List String) (batchSize : Nat) :
    List ((Nat × List Key) × String) :=
  let tasks := collectTasks records fields
  (tasks.map (fun t => (t.1, t.2.1))).zip
    ((chunk (tasks.map (fun t => t.2.2)) batchSize).flatMap svc)

/-! ### Shared helper lemmas -/

theorem chunk_cons (l : List String) (n : Nat) (hl : l ≠ []) (hn : n ≠ 0) :
    chunk l n = l.take n :: chunk (l.drop n) n := by
  rw [chunk]
  simp [List.isEmpty_iff, hl, hn]

theorem enum2_mem : ∀ (xs : List Json) (n i : Nat) (x : Json),
    (i, x) ∈ enum2 n xs → ∃ k, i = n + k ∧ xs.get? k = some x := by
  intro xs
  induction xs with
  | nil => intro n i x h; simp [enum2] at h
  | cons a tl ih =>
      intro n i x h
      simp only [enum2, List.mem_cons] at h
      rcases h with h1 | h2
      · refine ⟨0, ?_, ?_⟩
        · simpa using congrArg Prod.fst h1
        · have := congrArg Prod.snd h1
          simp at this
          simp [this]
      · obtain ⟨k, hk, hg⟩ := ih (n + 1) i x h2
        exact ⟨k + 1, by omega, by simpa using hg⟩

/-- Soundness of `_extract`: every yielded (address, value) pair consists
of the accumulated prefix plus a relative address at which the record
really holds that non-empty string. -/
theorem extract_sound : ∀ (tokens : List Token) (j : Json) (pre b : List Key) (s : String),
    (b, s) ∈ extract tokens j pre →
    ∃ b2, b = pre ++ b2 ∧ getAt j b2 = some (Json.str s) ∧ s ≠ "" := by
  intro tokens
  induction tokens with
  | nil =>
      intro j pre b s h
      cases j with
      | str s0 =>
          by_cases hs : s0 = ""
          · simp [extract, hs] at h
          · simp [extract, hs] at h
            exact ⟨[], by simp [h.1], by simp [getAt, h.2], by rw [h.2]; exact hs⟩
      | num n => simp [extract] at h
      | bool b0 => simp [extract] at h
      | null => simp [extract] at h
      | arr xs => simp [extract] at h
      | obj fs => simp [extract] at h
  | cons t rest ih =>
      intro j pre b s h
      cases t with
      | none =>
          cases j with
          | arr xs =>
              simp only [extract, List.mem_flatMap] at h
              obtain ⟨p, pmem, hmem⟩ := h
              obtain ⟨k, hk, hg⟩ := enum2_mem xs 0 p.1 p.2 pmem
              obtain ⟨b2, hb, hget, hs⟩ := ih p.2 (pre ++ [Key.idx p.1]) b s hmem
              refine ⟨Key.idx p.1 :: b2, by simp [hb], ?_, hs⟩
              simp only [getAt, getChild]
              have hpk : p.1 = k := by omega
              rw [hpk, hg]
              simpa using hget
          | str s0 => simp [extract] at h
          | num n => simp [extract] at h
          | bool b0 => simp [extract] at h
          | null => simp [extract] at h
          | obj fs => simp [extract] at h
      | some key =>
          cases j with
          | obj fs =>
              simp only [extract] at h
              match hl : lookupField fs key with
              | some v =>
                  rw [hl] at h
                  obtain ⟨b2, hb, hget, hs⟩ := ih v (pre ++ [Key.k key]) b s h
                  refine ⟨Key.k key :: b2, by simp [hb], ?_, hs⟩
                  simp only [getAt, getChild]
                  rw [hl]
                  simpa using hget
              | none => rw [hl] at h; simp at h
          | str s0 => simp [extract] at h
          | num n => simp [extract] at h
          | bool b0 => simp [extract] at h
          | null => simp [extract] at h
          | arr xs => simp [extract] at h

theorem setField_of_lookup : ∀ (fs : List (String × Json)) (key : String) (v : Json),
    lookupField fs key = some v → setField fs key v = fs := by
  intro fs
  induction fs with
  | nil => intro key v h; simp [lookupField] at h
  | cons kv rest ih =>
      intro key v h
      obtain ⟨k, w⟩ := kv
      by_cases hk : k = key
      · subst hk
        simp [lookupField] at h
        simp [setField, h]
      · simp [lookupField, hk] at h
        simp [setField, hk, ih key v h]

theorem listSet_of_get : ∀ (xs : List Json) (i : Nat) (v : Json),
    xs.get? i = some v → xs.set i v = xs := by
  intro xs
  induction xs with
  | nil => intro i v h; simp at h
  | cons a tl ih =>
      intro i v h
      cases i with
      | zero => simp at h; simp [h]
      | succ n =>
          simp at h
          simp [List.set, ih n v (by simpa using h)]

/-- Writing back the exact value that is already present leaves a node
unchanged (single-level version). -/
theorem setChild_of_getChild : ∀ (j : Json) (k : Key) (v : Json),
    getChild j k = some v → setChild j k v = some j := by
  intro j k v h
  cases j with
  | obj fs =>
      cases k with
      | k key => simp [getChild] at h; simp [setChild, setField_of_lookup fs key v h]
      | idx i => simp [getChild] at h
  | arr xs =>
      cases k with
      | k key => simp [getChild] at h
      | idx i =>
          simp only [getChild] at h
          have hlt : i < xs.length := by
            by_contra hge
            push_neg at hge
            rw [List.get?_eq_none.mpr (by omega)] at h
            exact Option.noConfusion h
          simp [setChild, hlt, listSet_of_get xs i v h]
  | str s => simp [getChild] at h
  | num n => simp [getChild] at h
  | bool b => simp [getChild] at h
  | null => simp [getChild] at h

/-- `_set_by_address` writing back the very string that is at the address
reproduces the record exactly. -/
theorem set_same : ∀ (b : List Key) (j : Json) (s : String),
    getAt j b = some (Json.str s) → b ≠ [] → set_by_address j b s = some j := by
  intro b
  induction b with
  | nil => intro j s h hne; exact absurd rfl hne
  | cons k rest ih =>
      intro j s h hne
      simp only [getAt] at h
      obtain ⟨c, hc, hcc⟩ := Option.bind_eq_some.mp h
      cases rest with
      | nil =>
          simp only [getAt] at hcc
          rw [Option.some_inj] at hcc
          subst hcc
          show set_by_address j [k] s = some j
          simp only [set_by_address]
          exact setChild_of_getChild j k (Json.str s) hc
      | cons k2 rest2 =>
          have hrec : set_by_address c (k2 :: rest2) s = some c :=
            ih c s hcc (by simp)
          show set_by_address j (k :: k2 :: rest2) s = some j
          simp only [set_by_address, Option.bind_eq_bind]
          rw [hc]
          simp only [Option.some_bind]
          rw [hrec]
          simp only [Option.some_bind]
          exact setChild_of_getChild j k c hc

theorem foldl_set_id : ∀ (l : List (List Key × String)) (j : Json),
    (∀ p ∈ l, set_by_address j p.1 p.2 = some j) →
    l.foldlM (fun cur p => set_by_address cur p.1 p.2) j = some j := by
  intro l
  induction l with
  | nil => intro j h; rfl
  | cons p tl ih =>
      intro j h
      have hp := h p (by simp)
      simp only [List.foldlM]
      rw [hp]
      exact ih j (fun q hq => h q (by simp [hq]))

/-! ### Concrete records used by the example-based claims -/

/-- The record of claim C3: `{"a": [[{"b":"x"},{"b":"y"}], [{"b":"z"}]]}`. -/
def recC3 : Json := Json.obj [("a", Json.arr [
  Json.arr [Json.obj [("b", Json.str "x")], Json.obj [("b", Json.str "y")]],
  Json.arr [Json.obj [("b", Json.str "z")]]])]

/-- The record of claim C7:
`{"title":"hi","meta":{"note":"ok","n":5},"tags":["a","b"]}`. -/
def recC7 : Json := Json.obj [("title", Json.str "hi"),
  ("meta", Json.obj [("note", Json.str "ok"), ("n", Json.num 5)]),
  ("tags", Json.arr [Json.str "a", Json.str "b"])]

/-- The record of claim C10: `{"a.b": "x"}`, a string leaf under a mapping
key that contains a dot. -/
def recC10 : Json := Json.obj [("a.b", Json.str "x")]

/-- A one-record input `{"title": "hello"}` used by claims C1 and C4. -/
def recOne : Json := Json.obj [("title", Json.str "hello")]

/-! ### Claim theorems -/

/-- C3: parsing `"a[*][*].b"` gives the token sequence literal/wildcard/
wildcard/literal, and extraction against
`{"a": [[{"b":"x"},{"b":"y"}], [{"b":"z"}]]}` yields exactly the three
matches `["a",0,0,"b"]` → `"x"`, `["a",0,1,"b"]` → `"y"`,
`["a",1,0,"b"]` → `"z"`, in that order. -/
theorem c3_wildcard_extraction :
    parse_path "a[*][*].b" = [some "a", none, none, some "b"] ∧
    extract (parse_path "a[*][*].b") recC3 [] =
      [([Key.k "a", Key.idx 0, Key.idx 0, Key.k "b"], "x"),
       ([Key.k "a", Key.idx 0, Key.idx 1, Key.k "b"], "y"),
       ([Key.k "a", Key.idx 1, Key.idx 0, Key.k "b"], "z")] := by
  constructor
  · simp +decide [parse_path, goTokens, isSep]
  · simp +decide [recC3, parse_path, goTokens, isSep, extract, enum2, lookupField]

/-- C7: auto-discovery on
`{"title":"hi","meta":{"note":"ok","n":5},"tags":["a","b"]}` yields exactly
`["title", "meta.note"]` — the sequence-valued `tags` and the non-string
leaf `meta.n` are excluded, because `_collect_all_string_paths` descends
into mapping values only. -/
theorem c7_auto_discovery_example :
    collect_all_string_paths recC7 "" = ["title", "meta.note"] := by
  simp +decide [recC7, collect_all_string_paths, collectFieldsAux]

/-- C10: in auto-detect mode, the string leaf under the dotted mapping key
of `{"a.b": "x"}` is silently lost: auto-discovery emits the path
`"a.b"`, which re-parses into two tokens, fails to re-resolve against the
record, so zero tasks are collected and `translate_records` returns the
input unchanged — the leaf is never translated. -/
theorem c10_dotted_key_lost_in_auto_mode :
    collect_all_string_paths recC10 "" = ["a.b"]
    ∧ parse_path "a.b" = [some "a", some "b"]
    ∧ extract (parse_path "a.b") recC10 [] = []
    ∧ collectTasks [recC10] [] = []
    ∧ translate_records [recC10] [] (fun ts => ts) 10 = some [recC10] := by
  refine ⟨?_, ?_, ?_, ?_, ?_⟩
  · simp +decide [recC10, collect_all_string_paths, collectFieldsAux]
  · simp +decide [parse_path, goTokens, isSep]
  · simp +decide [recC10, parse_path, goTokens, isSep, extract, lookupField]
  · simp +decide [recC10, collectTasks, enum2, collect_all_string_paths, collectFieldsAux,
      parse_path, goTokens, isSep, extract, lookupField]
  · simp +decide [recC10, translate_records, translateRecordsT, collectTasks, enum2,
      collect_all_string_paths, collectFieldsAux, parse_path, goTokens, isSep, extract,
      lookupField]

/-- C1 (code bug witness): `translate_records` — the whole pipeline of
src/main.py — performs no judge call and no repair call at all, even
though config.py sets `USE_JUDGE = True` and documents that a flagged
translation is retranslated with the judge's feedback
(src/translate/judge.py and `translate_with_feedback` are implemented but
never invoked).  At this input, where the bulk translation of "hello" is
the rejection-worthy "BAD", the full external-call trace is a single bulk
translate call and the unrepaired "BAD" appears in the final output. -/
theorem c1_pipeline_never_judges_or_repairs :
    translateRecordsT [recOne] ["title"] (fun _ => ["BAD"]) 10
      = (some [Json.obj [("title", Json.str "BAD")]],
         [SvcCall.translate ["hello"]]) := by
  simp +decide [recOne, translateRecordsT, collectTasks, enum2, parse_path, goTokens, isSep,
    extract, lookupField, chunk, applyWrites, set_by_address, setChild, setField]

/-- C4 (counterexample): it is not the case that a missing `OPENAI_API_KEY`
makes the run fail before any batch work with no retry.  At the concrete
input below the run does fail, but its event trace shows record reading
and task collection completed first and the lazily raised
`EnvironmentError` was retried 4 times by the tenacity wrapper around
`translate_batch`. -/
theorem c4_counterexample :
    ¬ (∀ (records : List Json) (fields : List String)
         (svc : List String → List String) (batchSize : Nat),
        (processFile ⟨none⟩ records fields svc batchSize).2.isOk = false →
        (processFile ⟨none⟩ records fields svc batchSize).1 = [] ∧
        (processFile ⟨none⟩ records fields svc batchSize).1.count Ev.apiAttempt ≤ 1) := by
  intro h
  have hc : processFile ⟨none⟩ [recOne] ["title"] (fun ts => ts) 10 =
      ([Ev.readRecords, Ev.collectTasks, Ev.apiAttempt, Ev.apiAttempt, Ev.apiAttempt,
        Ev.apiAttempt], Except.error "OPENAI_API_KEY is not set.") := by
    simp +decide [recOne, processFile, collectTasks, enum2, parse_path, goTokens, isSep,
      extract, lookupField, chunk, runBatches, translateBatchAttempts]
  have h2 := h [recOne] ["title"] (fun ts => ts) 10 (by rw [hc]; rfl)
  rw [hc] at h2
  simp at h2

/-- C4 (amended): with `OPENAI_API_KEY` missing and at least one task, the
run fails at the first translation call — after record reading and task
collection — because `_get_client` is only invoked lazily inside
`translate_batch`, and the `EnvironmentError` is retried like any other
exception (4 attempts, `stop_after_attempt(4)`) before being surfaced. -/
theorem c4_amended (records : List Json) (fields : List String)
    (svc : List String → List String) (batchSize : Nat)
    (hbs : 0 < batchSize) (htasks : collectTasks records fields ≠ []) :
    processFile ⟨none⟩ records fields svc batchSize =
      ([Ev.readRecords, Ev.collectTasks, Ev.apiAttempt, Ev.apiAttempt, Ev.apiAttempt,
        Ev.apiAttempt], Except.error "OPENAI_API_KEY is not set.") := by
  unfold processFile
  have h1 : (collectTasks records fields).isEmpty = false := by
    simpa [List.isEmpty_iff] using htasks
  have h2 : (collectTasks records fields).map (fun t => t.2.2) ≠ [] := by
    simpa using htasks
  have h4 : (((collectTasks records fields).map (fun t => t.2.2)).take batchSize).isEmpty
      = false := by
    simp [List.isEmpty_iff, List.take_eq_nil_iff, h2]
    omega
  simp only [h1, Bool.false_eq_true, if_false]
  rw [chunk_cons _ _ h2 (Nat.pos_iff_ne_zero.mp hbs)]
  simp only [runBatches, translateBatchAttempts, h4, Bool.false_eq_true, if_false]
  simp [List.replicate]

/-- Witness for C4's amended theorem at a concrete input. -/
theorem c4_witness :
    processFile ⟨none⟩ [recOne] ["title"] (fun ts => ts) 10 =
      ([Ev.readRecords, Ev.collectTasks, Ev.apiAttempt, Ev.apiAttempt, Ev.apiAttempt,
        Ev.apiAttempt], Except.error "OPENAI_API_KEY is not set.") :=
  c4_amended [recOne] ["title"] (fun ts => ts) 10 (by omega)
    (by simp +decide [recOne, collectTasks, enum2, parse_path, goTokens, isSep,
          extract, lookupField])

/-- C2: for every record (a JSON object, per the pipeline's
`records: list[dict]` type) and every path expression, each address/value
pair yielded by `_extract` satisfies the round-trip law — writing the
identical value back with `_set_by_address` reproduces the record exactly,
both per address and when folded over all yielded addresses. -/
theorem c2_round_trip (j : Json) (path : String) (hobj : isObjB j = true) :
    (∀ hit ∈ extract (parse_path path) j [], set_by_address j hit.1 hit.2 = some j) ∧
    (extract (parse_path path) j []).foldlM
        (fun cur hit => set_by_address cur hit.1 hit.2) j = some j := by
  have hone : ∀ hit ∈ extract (parse_path path) j [],
      set_by_address j hit.1 hit.2 = some j := by
    intro hit hmem
    obtain ⟨b2, hb, hget, hs⟩ := extract_sound (parse_path path) j [] hit.1 hit.2 hmem
    simp at hb
    subst hb
    have hne : hit.1 ≠ [] := by
      intro hnil
      rw [hnil] at hget
      have hj : j = Json.str hit.2 := by
        have h2 : some j = some (Json.str hit.2) := hget
        exact Option.some_inj.mp h2
      rw [hj] at hobj
      simp [isObjB] at hobj
    exact set_same hit.1 j hit.2 hget hne
  exact ⟨hone, foldl_set_id _ j hone⟩

/-- Witness for C2 at a concrete record and path. -/
theorem c2_witness :
    (∀ hit ∈ extract (parse_path "title") recOne [],
       set_by_address recOne hit.1 hit.2 = some recOne) ∧
    (extract (parse_path "title") recOne []).foldlM
        (fun cur hit => set_by_address cur hit.1 hit.2) recOne = some recOne :=
  c2_round_trip recOne "title" (by rfl)

/-- C6: on a non-empty batch whose response parses as a JSON array of the
wrong length, `translate_batch` raises the count-mismatch `ValueError`;
and whenever `translate_batch` returns normally, it returns a list of
strings of exactly the input length (never truncated or padded). -/
theorem c6_length_contract :
    (∀ (texts ts : List Json), texts ≠ [] → ts.length ≠ texts.length →
       ∃ msg, translate_batch texts (Except.ok (Json.arr ts)) = Except.error msg) ∧
    (∀ (texts : List Json) (parsed : Except String Json) (out : List String),
       translate_batch texts parsed = Except.ok out → out.length = texts.length) := by
  constructor
  · intro texts ts hne hlen
    have hcomp : translate_batch texts (Except.ok (Json.arr ts)) =
        Except.error ("Translation count mismatch: sent " ++
          toString (texts.map (fun t => match t with | Json.str s => s | _ => "")).length ++
          ", received " ++ toString ts.length) := by
      simp only [translate_batch]
      rw [if_neg (by simpa [List.isEmpty_iff] using hne)]
      rw [if_pos (by simpa using hlen)]
    exact ⟨_, hcomp⟩
  · intro texts parsed out h
    by_cases hne : texts = []
    · subst hne
      simp [translate_batch] at h
      simp [← h]
    · simp [translate_batch, List.isEmpty_iff, hne] at h
      match parsed with
      | Except.error raw => simp at h
      | Except.ok j =>
        match j with
        | Json.arr ts =>
            simp at h
            by_cases hl : ts.length = texts.length
            · simp [hl] at h
              simp [← h, hl]
            · simp [hl] at h
        | Json.str s => simp at h
        | Json.num n => simp at h
        | Json.bool b => simp at h
        | Json.null => simp at h
        | Json.obj fs => simp at h

/-- Witness for C6: a two-text batch answered by a one-element array
errors, and a well-shaped response produces a same-length output. -/
theorem c6_witness :
    (∃ msg, translate_batch [Json.str "a", Json.str "b"]
        (Except.ok (Json.arr [Json.str "x"])) = Except.error msg) ∧
    ([("x" : String)] : List String).length = ([Json.str "a"] : List Json).length :=
  ⟨c6_length_contract.1 [Json.str "a", Json.str "b"] [Json.str "x"] (by simp) (by decide),
   c6_length_contract.2 [Json.str "a"] (Except.ok (Json.arr [Json.str "x"])) ["x"] (by rfl)⟩

/-- C8: `_extract` is total and pure — it is a function on values; every
yielded value is a non-empty string actually present at the yielded
address, and a missing key, a non-mapping node at a literal token, a
non-sequence node at a wildcard token, and a non-string node at the end of
the tokens all yield no match rather than an error. -/
theorem c8_extract_total_string_only :
    (∀ (tokens : List Token) (j : Json) (b : List Key) (s : String),
       (b, s) ∈ extract tokens j [] → s ≠ "" ∧ getAt j b = some (Json.str s)) ∧
    (∀ (key : String) (rest : List Token) (fs : List (String × Json)) (addr : List Key),
       lookupField fs key = none → extract (some key :: rest) (Json.obj fs) addr = []) ∧
    (∀ (key : String) (rest : List Token) (j : Json) (addr : List Key),
       (∀ fs, j ≠ Json.obj fs) → extract (some key :: rest) j addr = []) ∧
    (∀ (rest : List Token) (j : Json) (addr : List Key),
       (∀ xs, j ≠ Json.arr xs) → extract (none :: rest) j addr = []) ∧
    (∀ (j : Json) (addr : List Key),
       (∀ s, j ≠ Json.str s) → extract [] j addr = []) := by
  refine ⟨?_, ?_, ?_, ?_, ?_⟩
  · intro tokens j b s h
    obtain ⟨b2, hb, hget, hs⟩ := extract_sound tokens j [] b s h
    simp at hb
    exact ⟨hs, by rw [hb]; exact hget⟩
  · intro key rest fs addr h
    simp [extract, h]
  · intro key rest j addr h
    cases j with
    | obj fs => exact absurd rfl (h fs)
    | str s => simp [extract]
    | num n => simp [extract]
    | bool b => simp [extract]
    | null => simp [extract]
    | arr xs => simp [extract]
  · intro rest j addr h
    cases j with
    | arr xs => exact absurd rfl (h xs)
    | str s => simp [extract]
    | num n => simp [extract]
    | bool b => simp [extract]
    | null => simp [extract]
    | obj fs => simp [extract]
  · intro j addr h
    cases j with
    | str s => exact absurd rfl (h s)
    | num n => simp [extract]
    | bool b => simp [extract]
    | null => simp [extract]
    | arr xs => simp [extract]
    | obj fs => simp [extract]

/-- Witness for C8, exercising each conjunct at concrete inputs. -/
theorem c8_witness :
    (("x" : String) ≠ "" ∧
       getAt (Json.obj [("t", Json.str "x")]) [Key.k "t"] = some (Json.str "x")) ∧
    extract [some "q"] (Json.obj [("t", Json.str "x")]) [] = [] ∧
    extract [some "q"] (Json.str "s") [] = [] ∧
    extract [none] (Json.obj [("t", Json.str "x")]) [] = [] ∧
    extract [] Json.null [] = [] :=
  ⟨c8_extract_total_string_only.1 [some "t"] (Json.obj [("t", Json.str "x")]) [Key.k "t"] "x"
      (by simp +decide [extract, lookupField]),
   c8_extract_total_string_only.2.1 "q" [] [("t", Json.str "x")] [] (by simp [lookupField]),
   c8_extract_total_string_only.2.2.1 "q" [] (Json.str "s") [] (by intro fs; simp),
   c8_extract_total_string_only.2.2.2.1 [] (Json.obj [("t", Json.str "x")]) []
      (by intro xs; simp),
   c8_extract_total_string_only.2.2.2.2 Json.null [] (by intro s; simp)⟩

/-- C9: on a judge response that parses as an array of the expected
length, `judge_batch` returns normally with exactly one verdict per input
pair; a well-formed verdict (a dict with an "ok" field) passes through
unchanged, and every malformed entry is normalised to a rejection carrying
a diagnostic feedback string — no verdict is ever dropped. -/
theorem c9_verdicts_normalised (originals translations : List String) (vs : List Json)
    (hlen : vs.length = originals.length) :
    ∃ out, judge_batch originals translations (Except.ok (Json.arr vs)) = Except.ok out ∧
      out.length = originals.length ∧
      ∀ i v, vs.get? i = some v →
        (hasOkKey v = true → out.get? i = some v) ∧
        (hasOkKey v = false → ∃ fb,
           out.get? i = some (Json.obj [("ok", Json.bool false),
                                        ("feedback", Json.str fb)])) := by
  refine ⟨vs.map normaliseVerdict, ?_, ?_, ?_⟩
  · simp only [judge_batch]
    rw [if_neg (by simp [hlen])]
  · simp [hlen]
  · intro i v hv
    have hm : (vs.map normaliseVerdict).get? i = some (normaliseVerdict v) := by
      simp only [List.get?_eq_getElem?] at hv ⊢
      simp [List.getElem?_map, hv]
    constructor
    · intro hok
      rw [hm]
      simp [normaliseVerdict, hok]
    · intro hok
      rw [hm]
      refine ⟨"Malformed verdict: " ++ pyStr v, ?_⟩
      simp [normaliseVerdict, hok]

/-- Witness for C9 on a one-pair batch whose verdict is a bare number. -/
theorem c9_witness :
    ∃ out, judge_batch ["orig"] ["trans"] (Except.ok (Json.arr [Json.num 3])) =
        Except.ok out ∧
      out.length = (["orig"] : List String).length ∧
      ∀ i v, ([Json.num 3] : List Json).get? i = some v →
        (hasOkKey v = true → out.get? i = some v) ∧
        (hasOkKey v = false → ∃ fb,
           out.get? i = some (Json.obj [("ok", Json.bool false),
                                        ("feedback", Json.str fb)])) :=
  c9_verdicts_normalised ["orig"] ["trans"] [Json.num 3] (by decide)

theorem under_nil (c : List Key) : under [] c := ⟨c, rfl⟩

theorem under_cons (k : Key) (a b : List Key) : under (k :: a) (k :: b) ↔ under a b := by
  constructor
  · rintro ⟨t, ht⟩
    exact ⟨t, by simpa using ht⟩
  · rintro ⟨t, ht⟩
    exact ⟨t, by simp [ht]⟩

theorem lget_set_self {α : Type} : ∀ (l : List α) (i : Nat) (a : α),
    i < l.length → (l.set i a).get? i = some a := by
  intro l
  induction l with
  | nil => intro i a h; simp at h
  | cons x tl ih =>
      intro i a h
      cases i with
      | zero => simp
      | succ n => simpa using ih n a (by simpa using h)

theorem lget_set_other {α : Type} : ∀ (l : List α) (i i2 : Nat) (a : α),
    i ≠ i2 → (l.set i a).get? i2 = l.get? i2 := by
  intro l
  induction l with
  | nil => intro i i2 a h; simp
  | cons x tl ih =>
      intro i i2 a h
      cases i with
      | zero =>
          cases i2 with
          | zero => exact absurd rfl h
          | succ m => simp
      | succ n =>
          cases i2 with
          | zero => simp
          | succ m => simpa using ih n m a (by omega)

theorem lget_some_lt {α : Type} : ∀ (l : List α) (i : Nat) (x : α),
    l.get? i = some x → i < l.length := by
  intro l
  induction l with
  | nil => intro i x h; simp at h
  | cons a tl ih =>
      intro i x h
      cases i with
      | zero => simp
      | succ n =>
          simp only [List.get?] at h
          have := ih n x h
          simp only [List.length_cons]
          omega

theorem lookup_setField_self : ∀ (fs : List (String × Json)) (key : String) (v : Json),
    lookupField (setField fs key v) key = some v := by
  intro fs
  induction fs with
  | nil => intro key v; simp [setField, lookupField]
  | cons kv rest ih =>
      intro key v
      obtain ⟨k, w⟩ := kv
      by_cases hk : k = key
      · simp [setField, hk, lookupField]
      · simp [setField, hk, lookupField, ih]

theorem lookup_setField_other : ∀ (fs : List (String × Json)) (key key2 : String) (v : Json),
    key2 ≠ key → lookupField (setField fs key v) key2 = lookupField fs key2 := by
  intro fs
  induction fs with
  | nil =>
      intro key key2 v h
      simp only [setField, lookupField]
      rw [if_neg (fun hh => h hh.symm)]
  | cons kv rest ih =>
      intro key key2 v h
      obtain ⟨k, w⟩ := kv
      by_cases hk : k = key
      · subst hk
        have hs : setField ((k, w) :: rest) k v = (k, v) :: rest := by simp [setField]
        rw [hs]
        have hne : ¬ (k = key2) := fun hh => h hh.symm
        simp [lookupField, hne]
      · have hs : setField ((k, w) :: rest) key v = (k, w) :: setField rest key v := by
          simp [setField, hk]
        rw [hs]
        by_cases hk2 : k = key2
        · simp [lookupField, hk2]
        · simp [lookupField, hk2, ih key key2 v h]

theorem getChild_setChild_same : ∀ (j : Json) (k : Key) (w j2 : Json),
    setChild j k w = some j2 → getChild j2 k = some w := by
  intro j k w j2 h
  cases j with
  | obj fs =>
      cases k with
      | k key =>
          simp [setChild] at h
          rw [← h]
          simp [getChild, lookup_setField_self]
      | idx i => simp [setChild] at h
  | arr xs =>
      cases k with
      | k key => simp [setChild] at h
      | idx i =>
          simp only [setChild] at h
          by_cases hlt : i < xs.length
          · rw [if_pos hlt] at h
            rw [Option.some_inj] at h
            rw [← h]
            simp only [getChild]
            exact lget_set_self xs i w hlt
          · rw [if_neg hlt] at h
            exact Option.noConfusion h
  | str s => simp [setChild] at h
  | num n => simp [setChild] at h
  | bool b => simp [setChild] at h
  | null => simp [setChild] at h

theorem getChild_setChild_other : ∀ (j : Json) (k k2 : Key) (w j2 : Json),
    setChild j k w = some j2 → k2 ≠ k → getChild j2 k2 = getChild j k2 := by
  intro j k k2 w j2 h hne
  cases j with
  | obj fs =>
      cases k with
      | k key =>
          simp [setChild] at h
          rw [← h]
          cases k2 with
          | k key2 =>
              have hne2 : key2 ≠ key := by
                intro hh
                exact hne (by rw [hh])
              simp [getChild, lookup_setField_other fs key key2 w hne2]
          | idx i2 => simp [getChild]
      | idx i => simp [setChild] at h
  | arr xs =>
      cases k with
      | k key => simp [setChild] at h
      | idx i =>
          simp only [setChild] at h
          by_cases hlt : i < xs.length
          · rw [if_pos hlt] at h
            rw [Option.some_inj] at h
            rw [← h]
            cases k2 with
            | k key2 => simp [getChild]
            | idx i2 =>
                have hne2 : i ≠ i2 := by
                  intro hh
                  exact hne (by rw [hh])
                simp only [getChild]
                exact lget_set_other xs i i2 w hne2
          · rw [if_neg hlt] at h
            exact Option.noConfusion h
  | str s => simp [setChild] at h
  | num n => simp [setChild] at h
  | bool b => simp [setChild] at h
  | null => simp [setChild] at h

theorem getAt_cons (j : Json) (k : Key) (p : List Key) :
    getAt j (k :: p) = (getChild j k).bind (fun c => getAt c p) := rfl

theorem getAt_append : ∀ (p : List Key) (j : Json) (q : List Key),
    getAt j (p ++ q) = (getAt j p).bind (fun x => getAt x q) := by
  intro p
  induction p with
  | nil => intro j q; simp [getAt]
  | cons k p2 ih =>
      intro j q
      simp only [List.cons_append, getAt_cons]
      cases getChild j k with
      | none => simp
      | some c => simp [ih c q]

theorem getAt_scalar_cons (x : Json) (k : Key) (c : List Key)
    (h : isScalarB x = true) : getAt x (k :: c) = none := by
  cases x with
  | str s => simp [getAt_cons, getChild]
  | num n => simp [getAt_cons, getChild]
  | bool b => simp [getAt_cons, getChild]
  | null => simp [getAt_cons, getChild]
  | arr xs => simp [isScalarB] at h
  | obj fs => simp [isScalarB] at h

theorem set_get_same : ∀ (b : List Key) (j : Json) (v : String) (j2 : Json),
    set_by_address j b v = some j2 → getAt j2 b = some (Json.str v) := by
  intro b
  induction b with
  | nil => intro j v j2 h; simp [set_by_address] at h
  | cons k rest ih =>
      intro j v j2 h
      cases rest with
      | nil =>
          show getAt j2 [k] = some (Json.str v)
          rw [getAt_cons]
          rw [getChild_setChild_same j k (Json.str v) j2 h]
          rfl
      | cons k2 rest2 =>
          simp only [set_by_address, Option.bind_eq_bind] at h
          obtain ⟨c0, hc0, h2⟩ := Option.bind_eq_some.mp h
          obtain ⟨c0', hset, hsc⟩ := Option.bind_eq_some.mp h2
          rw [getAt_cons]
          rw [getChild_setChild_same j k c0' j2 hsc]
          simpa using ih c0 v c0' hset

theorem setChild_some_nonscalar : ∀ (j : Json) (k : Key) (w j2 : Json),
    setChild j k w = some j2 → isScalarB j = false := by
  intro j k w j2 h
  cases j with
  | obj fs => rfl
  | arr xs => rfl
  | str s => simp [setChild] at h
  | num n => simp [setChild] at h
  | bool b => simp [setChild] at h
  | null => simp [setChild] at h

theorem getChild_some_nonscalar : ∀ (j : Json) (k : Key) (c : Json),
    getChild j k = some c → isScalarB j = false := by
  intro j k c h
  cases j with
  | obj fs => rfl
  | arr xs => rfl
  | str s => simp [getChild] at h
  | num n => simp [getChild] at h
  | bool b => simp [getChild] at h
  | null => simp [getChild] at h

/-- Frame property of `_set_by_address`: a write at `b` does not change
the value found at any address that is neither an extension nor a prefix
of `b`. -/
theorem set_frame : ∀ (b : List Key) (j : Json) (v : String) (j2 : Json),
    set_by_address j b v = some j2 →
    ∀ c, ¬ under b c → ¬ under c b → getAt j2 c = getAt j c := by
  intro b
  induction b with
  | nil => intro j v j2 h; simp [set_by_address] at h
  | cons k rest ih =>
      intro j v j2 h c hbc hcb
      cases c with
      | nil => exact absurd (under_nil (k :: rest)) hcb
      | cons kc c2 =>
          by_cases hk : kc = k
          · subst hk
            cases rest with
            | nil => exact absurd ⟨c2, rfl⟩ hbc
            | cons k2 rest2 =>
                simp only [set_by_address, Option.bind_eq_bind] at h
                obtain ⟨c0, hc0, h2⟩ := Option.bind_eq_some.mp h
                obtain ⟨c0', hset, hsc⟩ := Option.bind_eq_some.mp h2
                rw [getAt_cons, getAt_cons]
                rw [getChild_setChild_same j kc c0' j2 hsc, hc0]
                simp only [Option.some_bind]
                exact ih c0 v c0' hset c2
                  (fun hu => hbc ((under_cons kc _ _).mpr hu))
                  (fun hu => hcb ((under_cons kc _ _).mpr hu))
          · have hgc : getChild j2 kc = getChild j kc := by
              cases rest with
              | nil =>
                  exact getChild_setChild_other j k kc (Json.str v) j2 h hk
              | cons k2 rest2 =>
                  simp only [set_by_address, Option.bind_eq_bind] at h
                  obtain ⟨c0, hc0, h2⟩ := Option.bind_eq_some.mp h
                  obtain ⟨c0', hset, hsc⟩ := Option.bind_eq_some.mp h2
                  exact getChild_setChild_other j k kc c0' j2 hsc hk
            rw [getAt_cons, getAt_cons, hgc]

/-- Every strict prefix of a successfully written address points at a
non-scalar node of the original record. -/
theorem set_above_nonscalar : ∀ (c b : List Key) (j : Json) (v : String) (j2 : Json),
    set_by_address j b v = some j2 → under c b → c ≠ b →
    ∃ x, getAt j c = some x ∧ isScalarB x = false := by
  intro c
  induction c with
  | nil =>
      intro b j v j2 h hu hne
      refine ⟨j, rfl, ?_⟩
      cases b with
      | nil => simp [set_by_address] at h
      | cons k rest =>
          cases rest with
          | nil => exact setChild_some_nonscalar j k (Json.str v) j2 h
          | cons k2 rest2 =>
              simp only [set_by_address, Option.bind_eq_bind] at h
              obtain ⟨c0, hc0, h2⟩ := Option.bind_eq_some.mp h
              exact getChild_some_nonscalar j k c0 hc0
  | cons kc c2 ih =>
      intro b j v j2 h hu hne
      obtain ⟨t0, ht0⟩ := hu
      have htne : t0 ≠ [] := by
        intro hh
        rw [hh] at ht0
        simp at ht0
        exact hne ht0.symm
      cases b with
      | nil => simp [set_by_address] at h
      | cons kb rest =>
          have hkb : kb = kc ∧ rest = c2 ++ t0 := by
            constructor
            · have := congrArg (fun l => List.head? l) ht0
              simpa using this
            · have := congrArg (fun l => List.tail l) ht0
              simpa using this
          obtain ⟨hkb1, hkb2⟩ := hkb
          subst hkb1
          have hrest_ne : rest ≠ [] := by
            rw [hkb2]
            intro hh
            rcases List.append_eq_nil.mp hh with ⟨h1, h2⟩
            exact htne h2
          match rest, hrest_ne with
          | k2 :: rest2, _ =>
              simp only [set_by_address, Option.bind_eq_bind] at h
              obtain ⟨c0, hc0, h2⟩ := Option.bind_eq_some.mp h
              obtain ⟨c0', hset, hsc⟩ := Option.bind_eq_some.mp h2
              have hk2 : k2 :: rest2 = c2 ++ t0 := hkb2
              have hu2 : under c2 (k2 :: rest2) := ⟨t0, hk2.symm ▸ rfl⟩
              have hne2 : c2 ≠ k2 :: rest2 := by
                intro hh
                rw [← hh] at hk2
                have ht : t0 = [] := by
                  have hlen := congrArg List.length hk2
                  simp at hlen
                  exact hlen
                exact htne ht
              obtain ⟨x, hx, hxs⟩ := ih (k2 :: rest2) c0 v c0' hset hu2 hne2
              refine ⟨x, ?_, hxs⟩
              rw [getAt_cons, hc0]
              simpa using hx

theorem shapeFields_setField : ∀ (fs : List (String × Json)) (key : String) (ch ch' : Json),
    lookupField fs key = some ch → shape ch' = shape ch →
    shapeFields (setField fs key ch') = shapeFields fs := by
  intro fs
  induction fs with
  | nil => intro key ch ch' h hsh; simp [lookupField] at h
  | cons kv rest ih =>
      intro key ch ch' h hsh
      obtain ⟨k, w⟩ := kv
      by_cases hk : k = key
      · subst hk
        simp [lookupField] at h
        have hs : setField ((k, w) :: rest) k ch' = (k, ch') :: rest := by simp [setField]
        rw [hs]
        simp [shapeFields, hsh, h]
      · simp [lookupField, hk] at h
        have hs : setField ((k, w) :: rest) key ch' = (k, w) :: setField rest key ch' := by
          simp [setField, hk]
        rw [hs]
        simp [shapeFields, ih key ch ch' h hsh]

theorem shapeList_set : ∀ (xs : List Json) (i : Nat) (ch ch' : Json),
    xs.get? i = some ch → shape ch' = shape ch →
    shapeList (xs.set i ch') = shapeList xs := by
  intro xs
  induction xs with
  | nil => intro i ch ch' h hsh; simp at h
  | cons x tl ih =>
      intro i ch ch' h hsh
      cases i with
      | zero =>
          simp at h
          simp [List.set, shapeList, hsh, h]
      | succ n =>
          simp at h
          simp [List.set, shapeList, ih n ch ch' (by simpa using h) hsh]

theorem setChild_shape : ∀ (j : Json) (k : Key) (w c j2 : Json),
    setChild j k w = some j2 → getChild j k = some c → shape w = shape c →
    shape j2 = shape j := by
  intro j k w c j2 hset hget hsh
  cases j with
  | obj fs =>
      cases k with
      | k key =>
          simp [setChild] at hset
          simp [getChild] at hget
          rw [← hset]
          simp [shape, shapeFields_setField fs key c w hget hsh]
      | idx i => simp [setChild] at hset
  | arr xs =>
      cases k with
      | k key => simp [setChild] at hset
      | idx i =>
          simp only [getChild] at hget
          simp only [setChild] at hset
          by_cases hlt : i < xs.length
          · rw [if_pos hlt] at hset
            rw [Option.some_inj] at hset
            rw [← hset]
            simp [shape, shapeList_set xs i c w hget hsh]
          · rw [if_neg hlt] at hset
            exact Option.noConfusion hset
  | str s => simp [setChild] at hset
  | num n => simp [setChild] at hset
  | bool b => simp [setChild] at hset
  | null => simp [setChild] at hset

/-- A write that replaces a string leaf preserves the whole structural
skeleton (keys, key order, array lengths, nesting). -/
theorem set_shape : ∀ (b : List Key) (j : Json) (v : String) (j2 : Json) (s0 : String),
    set_by_address j b v = some j2 → getAt j b = some (Json.str s0) →
    shape j2 = shape j := by
  intro b
  induction b with
  | nil => intro j v j2 s0 h hget; simp [set_by_address] at h
  | cons k rest ih =>
      intro j v j2 s0 h hget
      rw [getAt_cons] at hget
      obtain ⟨c0, hc0, hat⟩ := Option.bind_eq_some.mp hget
      cases rest with
      | nil =>
          have hc : c0 = Json.str s0 := by
            have h2 : some c0 = some (Json.str s0) := hat
            exact Option.some_inj.mp h2
          subst hc
          exact setChild_shape j k (Json.str v) (Json.str s0) j2 h hc0 rfl
      | cons k2 rest2 =>
          simp only [set_by_address, Option.bind_eq_bind] at h
          obtain ⟨c1, hc1, h2⟩ := Option.bind_eq_some.mp h
          obtain ⟨c0', hset, hsc⟩ := Option.bind_eq_some.mp h2
          have hcc : c1 = c0 := by
            rw [hc0] at hc1
            exact (Option.some_inj.mp hc1).symm
          subst hcc
          exact setChild_shape j k c0' c1 j2 hsc hc0 (ih c1 v c0' s0 hset hat)

theorem writesAt_cons_same (i : Nat) (b : List Key) (v : String)
    (rest : List ((Nat × List Key) × String)) :
    writesAt (((i, b), v) :: rest) i b = v :: writesAt rest i b := by
  simp [writesAt]

theorem writesAt_cons_self (w : (Nat × List Key) × String)
    (rest : List ((Nat × List Key) × String)) (i : Nat) (b : List Key)
    (h : w.1 = (i, b)) :
    writesAt (w :: rest) i b = w.2 :: writesAt rest i b := by
  simp [writesAt, h]

theorem writesAt_cons_other (w : (Nat × List Key) × String)
    (rest : List ((Nat × List Key) × String)) (i : Nat) (b : List Key)
    (h : w.1 ≠ (i, b)) :
    writesAt (w :: rest) i b = writesAt rest i b := by
  simp [writesAt, h]

theorem writesAt_nil_of_not : ∀ (ws : List ((Nat × List Key) × String)) (i : Nat)
    (b : List Key), ¬ hasWrite ws i b → writesAt ws i b = [] := by
  intro ws
  induction ws with
  | nil => intro i b h; rfl
  | cons w rest ih =>
      intro i b h
      have hne : w.1 ≠ (i, b) := by
        intro hh
        exact h ⟨w.2, by rw [← hh]; simp⟩
      rw [writesAt_cons_other w rest i b hne]
      exact ih i b (fun ⟨v, hv⟩ => h ⟨v, by simp [hv]⟩)

theorem writesAt_ne_nil : ∀ (ws : List ((Nat × List Key) × String)) (i : Nat)
    (b : List Key), hasWrite ws i b → writesAt ws i b ≠ [] := by
  intro ws
  induction ws with
  | nil => intro i b h; obtain ⟨v, hv⟩ := h; simp at hv
  | cons w rest ih =>
      intro i b h
      obtain ⟨v, hv⟩ := h
      simp only [List.mem_cons] at hv
      rcases hv with hv1 | hv2
      · rw [← hv1]
        rw [writesAt_cons_same i b v rest]
        simp
      · by_cases hne : w.1 = (i, b)
        · rw [writesAt_cons_self w rest i b hne]
          simp
        · rw [writesAt_cons_other w rest i b hne]
          exact ih i b ⟨v, hv2⟩

theorem getLast?_cons_ne_nil {α : Type} (a : α) (l : List α) (h : l ≠ []) :
    (a :: l).getLast? = l.getLast? := by
  cases l with
  | nil => exact absurd rfl h
  | cons x xs => simp [List.getLast?_cons_cons]

theorem applyWrites_spec :
    ∀ (ws : List ((Nat × List Key) × String)) (cur out : List Json),
      applyWrites cur ws = some out →
      (∀ w ∈ ws, ∃ r s, cur.get? w.1.1 = some r ∧ getAt r w.1.2 = some (Json.str s)) →
      (∀ w w2, w ∈ ws → w2 ∈ ws → w.1.1 = w2.1.1 → under w.1.2 w2.1.2 → w.1.2 = w2.1.2) →
      out.length = cur.length ∧
      (∀ i r, cur.get? i = some r → ∃ r2, out.get? i = some r2 ∧
        shape r2 = shape r ∧
        (∀ c x, getAt r c = some x → isScalarB x = true → ¬ hasWrite ws i c →
           getAt r2 c = getAt r c) ∧
        (∀ c, hasWrite ws i c →
           ∃ s, getAt r2 c = some (Json.str s) ∧ (writesAt ws i c).getLast? = some s)) := by
  intro ws
  induction ws with
  | nil =>
      intro cur out h H1 H2
      have hout : out = cur := by
        simp [applyWrites] at h
        exact h.symm
      subst hout
      refine ⟨rfl, ?_⟩
      intro i r hr
      exact ⟨r, hr, rfl, fun c x _ _ _ => rfl,
             fun c hw => absurd hw (by simp [hasWrite])⟩
  | cons w rest ih =>
      intro cur out h H1 H2
      obtain ⟨⟨i0, b0⟩, v0⟩ := w
      simp only [applyWrites, Option.bind_eq_bind] at h
      obtain ⟨r0, hr0, h2⟩ := Option.bind_eq_some.mp h
      obtain ⟨r0', hset, happ⟩ := Option.bind_eq_some.mp h2
      obtain ⟨ra, sa, hra, hga0⟩ := H1 ((i0, b0), v0) (by simp)
      have hra0 : ra = r0 := by
        rw [hr0] at hra
        exact (Option.some_inj.mp hra).symm
      have hga : getAt r0 b0 = some (Json.str sa) := by rw [← hra0]; exact hga0
      have hlt0 : i0 < cur.length := lget_some_lt cur i0 r0 hr0
      have hgself : (cur.set i0 r0').get? i0 = some r0' := lget_set_self cur i0 r0' hlt0
      have H1' : ∀ w2 ∈ rest, ∃ r s, (cur.set i0 r0').get? w2.1.1 = some r ∧
          getAt r w2.1.2 = some (Json.str s) := by
        intro w2 hw2
        obtain ⟨rb, sb, hrb, hgb⟩ := H1 w2 (by simp [hw2])
        by_cases hi : w2.1.1 = i0
        · rw [hi] at hrb
          have hrb0 : rb = r0 := by
            rw [hr0] at hrb
            exact (Option.some_inj.mp hrb).symm
          rw [hrb0] at hgb
          by_cases hb : w2.1.2 = b0
          · refine ⟨r0', v0, by rw [hi]; exact hgself, ?_⟩
            rw [hb]
            exact set_get_same b0 r0 v0 r0' hset
          · have hnb1 : ¬ under b0 w2.1.2 := fun hu =>
              hb (H2 ((i0, b0), v0) w2 (by simp) (by simp [hw2]) (by simp [hi]) hu).symm
            have hnb2 : ¬ under w2.1.2 b0 := fun hu =>
              hb (H2 w2 ((i0, b0), v0) (by simp [hw2]) (by simp) (by simp [hi]) hu)
            have hfr := set_frame b0 r0 v0 r0' hset w2.1.2 hnb1 hnb2
            exact ⟨r0', sb, by rw [hi]; exact hgself, by rw [hfr]; exact hgb⟩
        · have hcg : (cur.set i0 r0').get? w2.1.1 = cur.get? w2.1.1 :=
            lget_set_other cur i0 w2.1.1 r0' (fun hh => hi hh.symm)
          exact ⟨rb, sb, by rw [hcg]; exact hrb, hgb⟩
      have H2' : ∀ w2 w3, w2 ∈ rest → w3 ∈ rest → w2.1.1 = w3.1.1 →
          under w2.1.2 w3.1.2 → w2.1.2 = w3.1.2 :=
        fun w2 w3 h2m h3m => H2 w2 w3 (by simp [h2m]) (by simp [h3m])
      obtain ⟨hlen, hspec⟩ := ih (cur.set i0 r0') out happ H1' H2'
      constructor
      · rw [hlen]
        simp
      · intro i r hr
        by_cases hi : i = i0
        · subst hi
          have hr0r : r = r0 := by
            rw [hr0] at hr
            exact (Option.some_inj.mp hr).symm
          subst hr0r
          obtain ⟨r2, hr2, hsh2, hfr2, hwr2⟩ := hspec i r0' hgself
          refine ⟨r2, hr2, ?_, ?_, ?_⟩
          · rw [hsh2]
            exact set_shape b0 r v0 r0' sa hset hga
          · intro c x hgx hscal hnw
            have hcb0 : c ≠ b0 := fun hh => hnw ⟨v0, by rw [hh]; simp⟩
            have hn1 : ¬ under b0 c := by
              rintro ⟨t0, ht0⟩
              have ht0ne : t0 ≠ [] := by
                intro hh
                rw [hh] at ht0
                simp at ht0
                exact hcb0 ht0
              match t0, ht0ne with
              | d :: t1, _ =>
                  rw [ht0, getAt_append, hga] at hgx
                  simp only [Option.some_bind] at hgx
                  rw [getAt_scalar_cons (Json.str sa) d t1 rfl] at hgx
                  exact Option.noConfusion hgx
            have hn2 : ¬ under c b0 := by
              intro hu
              obtain ⟨x', hx', hxs'⟩ := set_above_nonscalar c b0 r v0 r0' hset hu hcb0
              rw [hgx] at hx'
              have hxx : x = x' := Option.some_inj.mp hx'
              rw [hxx] at hscal
              rw [hscal] at hxs'
              exact Bool.noConfusion hxs'
            have hfr : getAt r0' c = getAt r c := set_frame b0 r v0 r0' hset c hn1 hn2
            have hnw' : ¬ hasWrite rest i c := fun hhw => by
              obtain ⟨v, hv⟩ := hhw
              exact hnw ⟨v, by simp [hv]⟩
            have hstep := hfr2 c x (by rw [hfr]; exact hgx) hscal hnw'
            rw [hstep, hfr]
          · intro c hw
            by_cases hcw : hasWrite rest i c
            · obtain ⟨s, hs1, hs2⟩ := hwr2 c hcw
              refine ⟨s, hs1, ?_⟩
              by_cases hcb : c = b0
              · subst hcb
                rw [writesAt_cons_same i c v0 rest]
                rw [getLast?_cons_ne_nil v0 _ (writesAt_ne_nil rest i c hcw)]
                exact hs2
              · rw [writesAt_cons_other ((i, b0), v0) rest i c
                    (by simp; intro hbb; exact hcb (by rw [hbb]))]
                exact hs2
            · have hcb : c = b0 := by
                obtain ⟨v, hv⟩ := hw
                simp only [List.mem_cons] at hv
                rcases hv with hv1 | hv2
                · have := congrArg (fun p => p.1.2) hv1
                  simpa using this
                · exact absurd ⟨v, hv2⟩ hcw
              subst hcb
              have hg0 : getAt r0' c = some (Json.str v0) := set_get_same c r v0 r0' hset
              have hstep := hfr2 c (Json.str v0) hg0 rfl hcw
              refine ⟨v0, by rw [hstep]; exact hg0, ?_⟩
              rw [writesAt_cons_same i c v0 rest]
              rw [writesAt_nil_of_not rest i c hcw]
              rfl
        · have hcg : (cur.set i0 r0').get? i = cur.get? i :=
            lget_set_other cur i0 i r0' (fun hh => hi hh.symm)
          obtain ⟨r2, hr2, hsh2, hfr2, hwr2⟩ := hspec i r (by rw [hcg]; exact hr)
          refine ⟨r2, hr2, hsh2, ?_, ?_⟩
          · intro c x hgx hscal hnw
            exact hfr2 c x hgx hscal (fun hhw => by
              obtain ⟨v, hv⟩ := hhw
              exact hnw ⟨v, by simp [hv]⟩)
          · intro c hw
            have hw' : hasWrite rest i c := by
              obtain ⟨v, hv⟩ := hw
              simp only [List.mem_cons] at hv
              rcases hv with hv1 | hv2
              · have := congrArg (fun p => p.1.1) hv1
                simp at this
                exact absurd this hi
              · exact ⟨v, hv2⟩
            obtain ⟨s, hs1, hs2⟩ := hwr2 c hw'
            refine ⟨s, hs1, ?_⟩
            rw [writesAt_cons_other ((i0, b0), v0) rest i c
                (by simp; intro hii; exact absurd hii.symm hi)]
            exact hs2

theorem collectTasks_sound : ∀ (records : List Json) (fields : List String)
    (i : Nat) (b : List Key) (s : String),
    (i, b, s) ∈ collectTasks records fields →
    ∃ r, records.get? i = some r ∧ getAt r b = some (Json.str s) ∧ s ≠ "" := by
  intro records fields i b s h
  simp only [collectTasks, List.mem_flatMap] at h
  obtain ⟨p, pmem, h2⟩ := h
  obtain ⟨path, pathmem, h3⟩ := h2
  obtain ⟨hit, hitmem, h4⟩ := List.mem_map.mp h3
  obtain ⟨k, hk, hg⟩ := enum2_mem records 0 p.1 p.2 pmem
  obtain ⟨b2, hb, hget, hs⟩ := extract_sound (parse_path path) p.2 [] hit.1 hit.2 hitmem
  simp at hb
  have hi : i = p.1 := by
    have := congrArg (fun q => q.1) h4
    simpa using this.symm
  have hbb : b = hit.1 := by
    have := congrArg (fun q => q.2.1) h4
    simpa using this.symm
  have hss : s = hit.2 := by
    have := congrArg (fun q => q.2.2) h4
    simpa using this.symm
  refine ⟨p.2, ?_, ?_, ?_⟩
  · rw [hi, show p.1 = k by omega]
    exact hg
  · rw [hbb, hb, hss]
    exact hget
  · rw [hss]
    exact hs

theorem chunk_flatMap_len (n : Nat) (hn : 0 < n) (svc : List String → List String)
    (hsvc : ∀ ts, (svc ts).length = ts.length) :
    ∀ (N : Nat) (l : List String), l.length ≤ N →
      ((chunk l n).flatMap svc).length = l.length := by
  intro N
  induction N with
  | zero =>
      intro l h
      have hl : l = [] := by
        cases l with
        | nil => rfl
        | cons a tl => simp at h
      subst hl
      rw [chunk]
      simp
  | succ N ihN =>
      intro l h
      by_cases hl : l = []
      · subst hl
        rw [chunk]
        simp
      · rw [chunk_cons l n hl (by omega)]
        simp only [List.flatMap_cons, List.length_append, hsvc]
        rw [ihN (l.drop n) (by simp [List.length_drop]; omega)]
        simp only [List.length_take, List.length_drop]
        omega

theorem mem_zip_of_len {α β : Type} : ∀ (l1 : List α) (l2 : List β),
    l1.length = l2.length → ∀ x ∈ l1, ∃ y, (x, y) ∈ l1.zip l2 := by
  intro l1
  induction l1 with
  | nil => intro l2 h x hx; simp at hx
  | cons a t1 ih =>
      intro l2 h x hx
      cases l2 with
      | nil => simp at h
      | cons b t2 =>
          simp only [List.zip_cons_cons]
          rcases List.mem_cons.mp hx with h1 | h2
          · exact ⟨b, by simp [h1]⟩
          · obtain ⟨y, hy⟩ := ih t2 (by simpa using h) x h2
            exact ⟨y, by simp [hy]⟩

/-- C5: `translate_records` never mutates its input (the embedding is
pure value-passing, mirroring the `copy.deepcopy` of the source, so the
input list is untouched by construction) and the returned records are a
structural copy with exactly the addressed leaves replaced: the output has
one record per input record, each output record has the same skeleton
(keys, key order, array lengths, nesting) as its input record, every
scalar leaf at a non-targeted address is unchanged, and every targeted
address holds the string written by the last translation assigned to it. -/
theorem c5_structural_copy_frame (records out : List Json) (fields : List String)
    (svc : List String → List String) (batchSize : Nat)
    (hsvc : ∀ ts, (svc ts).length = ts.length) (hbs : 0 < batchSize)
    (h : translate_records records fields svc batchSize = some out) :
    out.length = records.length ∧
    ∀ i r, records.get? i = some r → ∃ r2, out.get? i = some r2 ∧
      shape r2 = shape r ∧
      (∀ c x, getAt r c = some x → isScalarB x = true →
         (∀ s, (i, c, s) ∉ collectTasks records fields) → getAt r2 c = getAt r c) ∧
      (∀ c s0, (i, c, s0) ∈ collectTasks records fields →
         ∃ s, getAt r2 c = some (Json.str s) ∧
           (writesAt (allWrites records fields svc batchSize) i c).getLast? = some s) := by
  unfold translate_records translateRecordsT at h
  by_cases htk : (collectTasks records fields).isEmpty
  · simp only [htk, if_true] at h
    have hout : out = records := (Option.some_inj.mp h).symm
    rw [hout]
    have hnil : collectTasks records fields = [] := List.isEmpty_iff.mp htk
    refine ⟨rfl, ?_⟩
    intro i r hr
    refine ⟨r, hr, rfl, fun c x _ _ _ => rfl, ?_⟩
    intro c s0 hmem
    rw [hnil] at hmem
    simp at hmem
  · simp only [htk, Bool.false_eq_true, if_false] at h
    have hws : ((collectTasks records fields).map (fun t => (t.1, t.2.1))).zip
        ((chunk ((collectTasks records fields).map (fun t => t.2.2)) batchSize).flatMap svc)
        = allWrites records fields svc batchSize := rfl
    rw [hws] at h
    have haddr : ∀ w ∈ allWrites records fields svc batchSize,
        ∃ s, (w.1.1, w.1.2, s) ∈ collectTasks records fields := by
      intro w hw
      have hmem1 : w.1 ∈ (collectTasks records fields).map (fun t => (t.1, t.2.1)) := by
        have := List.of_mem_zip (show (w.1, w.2) ∈ _ from hw)
        exact this.1
      obtain ⟨t, htmem, hteq⟩ := List.mem_map.mp hmem1
      refine ⟨t.2.2, ?_⟩
      have h1 : w.1.1 = t.1 := by rw [← hteq]
      have h2 : w.1.2 = t.2.1 := by rw [← hteq]
      rw [h1, h2]
      simpa using htmem
    have H1 : ∀ w ∈ allWrites records fields svc batchSize,
        ∃ r s, records.get? w.1.1 = some r ∧ getAt r w.1.2 = some (Json.str s) := by
      intro w hw
      obtain ⟨s, hmem⟩ := haddr w hw
      obtain ⟨r, hr, hget, hs⟩ := collectTasks_sound records fields w.1.1 w.1.2 s hmem
      exact ⟨r, s, hr, hget⟩
    have H2 : ∀ w w2, w ∈ allWrites records fields svc batchSize →
        w2 ∈ allWrites records fields svc batchSize →
        w.1.1 = w2.1.1 → under w.1.2 w2.1.2 → w.1.2 = w2.1.2 := by
      intro w w2 hw hw2 hi hu
      by_contra hne
      obtain ⟨s1, hm1⟩ := haddr w hw
      obtain ⟨s2, hm2⟩ := haddr w2 hw2
      obtain ⟨r1, hr1, hg1, _⟩ := collectTasks_sound records fields w.1.1 w.1.2 s1 hm1
      obtain ⟨r2, hr2, hg2, _⟩ := collectTasks_sound records fields w2.1.1 w2.1.2 s2 hm2
      rw [← hi] at hr2
      have hrr : r2 = r1 := by
        rw [hr1] at hr2
        exact (Option.some_inj.mp hr2).symm
      rw [hrr] at hg2
      obtain ⟨t0, ht0⟩ := hu
      have ht0ne : t0 ≠ [] := by
        intro hh
        rw [hh] at ht0
        simp at ht0
        exact hne ht0.symm
      match t0, ht0ne with
      | d :: t1, _ =>
          rw [ht0, getAt_append, hg1] at hg2
          simp only [Option.some_bind] at hg2
          rw [getAt_scalar_cons (Json.str s1) d t1 rfl] at hg2
          exact Option.noConfusion hg2
    obtain ⟨hlen, hspec⟩ := applyWrites_spec (allWrites records fields svc batchSize)
      records out h H1 H2
    refine ⟨hlen, ?_⟩
    intro i r hr
    obtain ⟨r2, hr2, hsh, hfr, hwr⟩ := hspec i r hr
    refine ⟨r2, hr2, hsh, ?_, ?_⟩
    · intro c x hgx hscal hnt
      refine hfr c x hgx hscal ?_
      intro hhw
      obtain ⟨v, hv⟩ := hhw
      obtain ⟨s, hmem⟩ := haddr ((i, c), v) hv
      exact hnt s hmem
    · intro c s0 hmem
      have hhw : hasWrite (allWrites records fields svc batchSize) i c := by
        have hx : (i, c) ∈ (collectTasks records fields).map (fun t => (t.1, t.2.1)) := by
          exact List.mem_map.mpr ⟨(i, c, s0), hmem, rfl⟩
        have hlens : ((collectTasks records fields).map (fun t => (t.1, t.2.1))).length =
            ((chunk ((collectTasks records fields).map (fun t => t.2.2)) batchSize).flatMap
              svc).length := by
          rw [chunk_flatMap_len batchSize hbs svc hsvc
              ((collectTasks records fields).map (fun t => t.2.2)).length _ (le_refl _)]
          simp
        obtain ⟨y, hy⟩ := mem_zip_of_len _ _ hlens (i, c) hx
        exact ⟨y, hy⟩
      exact hwr c hhw

/-- Witness for C5 at a concrete record, field list and echoing service. -/
theorem c5_witness :
    ([recOne] : List Json).length = ([recOne] : List Json).length ∧
    ∀ i r, ([recOne] : List Json).get? i = some r →
      ∃ r2, ([recOne] : List Json).get? i = some r2 ∧
        shape r2 = shape r ∧
        (∀ c x, getAt r c = some x → isScalarB x = true →
           (∀ s, (i, c, s) ∉ collectTasks [recOne] ["title"]) → getAt r2 c = getAt r c) ∧
        (∀ c s0, (i, c, s0) ∈ collectTasks [recOne] ["title"] →
           ∃ s, getAt r2 c = some (Json.str s) ∧
             (writesAt (allWrites [recOne] ["title"] (fun ts => ts) 10) i c).getLast? =
               some s) :=
  c5_structural_copy_frame [recOne] [recOne] ["title"] (fun ts => ts) 10
    (fun ts => rfl) (by omega)
    (by simp +decide [recOne, translate_records, translateRecordsT, collectTasks, enum2,
      parse_path, goTokens, isSep, extract, lookupField, chunk, applyWrites,
      set_by_address, setChild, setField])

end Translator
